import Mathlib

/-!
# Verification of `src/stream_compaction/efficient.cu`

Shallow embedding of the work-efficient scan / stream-compaction / radix-sort
implementation.  Device buffers are modelled as `List ℤ`; a CUDA kernel launch
over an index space is modelled as a pointwise map (the per-level writes of the
sweep kernels touch pairwise disjoint positions and read positions written by
no active thread of the same level, so the parallel execution is equivalent to
the pointwise description; the guard-equivalence lemmas below relate the
pointwise guards to the source's per-thread activation test).  Scatter kernels,
whose writes may collide, are modelled as a fold over the thread index space in
increasing index order.

`int` values are modelled as unbounded `ℤ`: 32-bit machine addition is integer
addition followed by reduction mod 2^32, and that reduction is a ring
homomorphism, so every statement about sums transfers to the machine values as
a congruence mod 2^32.  Where the bit pattern itself matters (the radix-sort
bit classification) the reduction is made explicit (`toUInt32Nat`,
`toSigned32`).

Contents of `common.h` / `common.cu` (`ilog2ceil`, `Common::kernMapToBoolean`,
`Common::kernScatter`) are not part of `src/`; they are modelled from the
spec, and carry doc comments saying so.

Freshly `cudaMalloc`ed device memory holds unspecified contents.  Every model
function that reads memory the source never wrote takes that memory as an
explicit `ℕ → ℤ` parameter.
-/

namespace StreamCompaction

/-- Modelled from the spec: `ilog2ceil` lives in `common.h`, which is not under
`src/`.  The spec defines the padded length as the smallest power of two that
is at least the logical length `n`, i.e. `2 ^ ilog2ceil n`; this definition
returns the least exponent `k` with `n ≤ 2 ^ k` (searching `k = 0, …, n`
suffices because `n ≤ 2 ^ n`).  It agrees with `Nat.clog 2`
(`ilog2ceil_eq_clog` below) and is kernel-computable. -/
def ilog2ceil (n : ℕ) : ℕ :=
  (((List.range (n + 1)).filter fun k => n ≤ 2 ^ k).headD 0)

/-- `blockSize` in the source is 128; a launch of `⌈n / 128⌉` blocks provides
this many threads. -/
def gridThreads (n : ℕ) : ℕ := ((n + 128 - 1) / 128) * 128

/-- One up-sweep level (`kernUpSweep` in the source).  Thread `i < n` with
`i % 2^(d+1) == 0` performs `x[i + 2^(d+1) - 1] += x[i + 2^d - 1]`.
Pointwise: position `p` is the write target of (the unique) active thread
`i = p + 1 - 2^(d+1)` exactly when the guard below holds
(`kernUpSweep_guard_iff`), and the addend position is `i + 2^d - 1 = p - 2^d`.
All writes of one level hit distinct positions and no active thread reads a
position written in the same level, so the parallel level equals this map. -/
def kernUpSweep (n d : ℕ) (x : List ℤ) : List ℤ :=
  (List.range x.length).map fun p =>
    if 2 ^ (d + 1) ≤ p + 1 ∧ (p + 1) % 2 ^ (d + 1) = 0 ∧ p + 1 - 2 ^ (d + 1) < n then
      x.getD p 0 + x.getD (p - 2 ^ d) 0
    else
      x.getD p 0

/-- One down-sweep level (`kernDownSweep` in the source).  Thread `i < n` with
`i % 2^(d+1) == 0` does
`t = x[i + 2^d - 1]; x[i + 2^d - 1] = x[i + 2^(d+1) - 1];
 x[i + 2^(d+1) - 1] += t`, both reads seeing the pre-level state.
Pointwise: position `p` is the left target (`p = i + 2^d - 1`, receiving the
old right value `x[p + 2^d]`) under the first guard, and the right target
(`p = i + 2^(d+1) - 1`, receiving the sum of the old values) under the second
(`kernDownSweep_guard_iff`); the two guards are mutually exclusive. -/
def kernDownSweep (n d : ℕ) (x : List ℤ) : List ℤ :=
  (List.range x.length).map fun p =>
    if 2 ^ d ≤ p + 1 ∧ (p + 1) % 2 ^ (d + 1) = 2 ^ d ∧ p + 1 - 2 ^ d < n then
      x.getD (p + 2 ^ d) 0
    else if 2 ^ (d + 1) ≤ p + 1 ∧ (p + 1) % 2 ^ (d + 1) = 0 ∧ p + 1 - 2 ^ (d + 1) < n then
      x.getD p 0 + x.getD (p - 2 ^ d) 0
    else
      x.getD p 0

/-- `cudaMemset(data + n - 1, 0, sizeof(int))`: overwrite element `n - 1`
with 0. -/
def zeroLast (n : ℕ) (x : List ℤ) : List ℤ := x.set (n - 1) 0

/-- The up-sweep loop `for (d = 0; d <= ilog2ceil(n) - 1; ++d)`:
`upSweepLevels n m x` runs levels `d = 0, …, m - 1` (level `m - 1` last). -/
def upSweepLevels (n : ℕ) : ℕ → List ℤ → List ℤ
  | 0, x => x
  | m + 1, x => kernUpSweep n m (upSweepLevels n m x)

/-- The down-sweep loop `for (d = ilog2ceil(n) - 1; d >= 0; --d)`:
`downSweepLevels n m x` runs levels `d = m - 1, …, 0` (level `m - 1` first). -/
def downSweepLevels (n : ℕ) : ℕ → List ℤ → List ℤ
  | 0, x => x
  | m + 1, x => downSweepLevels n m (kernDownSweep n m x)

/-- `upDownSweep(n, data)` from the source: all up-sweep levels, then zero the
last slot, then all down-sweep levels. -/
def upDownSweep (n : ℕ) (data : List ℤ) : List ℤ :=
  downSweepLevels n (ilog2ceil n) (zeroLast n (upSweepLevels n (ilog2ceil n) data))

/-- The device buffer `dev_data` in `scan` at the moment `upDownSweep` is
invoked: `cudaMalloc` of `2 ^ ilog2ceil n` ints, then `cudaMemcpy` of the first
`n` inputs.  The remaining `2 ^ ilog2ceil n - n` slots are never written, so
they hold the allocator's contents `mem`. -/
def scanPaddedInput (n : ℕ) (idata : List ℤ) (mem : ℕ → ℤ) : List ℤ :=
  idata.take n ++ (List.range (2 ^ ilog2ceil n - n)).map mem

/-- `scan(n, odata, idata)` from the source: run `upDownSweep` on the padded
device buffer and copy the first `n` results back to the host. -/
def scan (n : ℕ) (idata : List ℤ) (mem : ℕ → ℤ) : List ℤ :=
  (upDownSweep (2 ^ ilog2ceil n) (scanPaddedInput n idata mem)).take n

/-- Modelled from the spec: `Common::kernMapToBoolean` lives in `common.cu`,
which is not under `src/`.  Spec §4.3 step 1: `predicate[i] = 1 if in[i] ≠ 0
else 0, for i in [0, n)`.  The kernel writes only indices below `n`; the tail
of the device buffer is appended by the caller. -/
def kernMapToBoolean (n : ℕ) (idata : List ℤ) : List ℤ :=
  (idata.take n).map fun v => if v = 0 then 0 else 1

/-- Modelled from the spec: `Common::kernScatter` lives in `common.cu`, which
is not under `src/`.  Spec §4.3 step 5: for every `i` with `predicate[i] = 1`,
write `in[i]` to `out[scanResult[i]]`.  The launch covers thread indices
`[0, eff)`; colliding parallel writes are serialized in increasing index
order; a write whose target is outside the output buffer is dropped (on the
device it would be an out-of-bounds store, and the host copy-back never reads
past the buffer). -/
def kernScatterCommon (eff : ℕ) (odata idata bools indices : List ℤ) : List ℤ :=
  (List.range eff).foldl
    (fun acc idx =>
      if bools.getD idx 0 = 1 then
        acc.set (indices.getD idx 0).toNat (idata.getD idx 0)
      else acc)
    odata

/-- `compact(n, odata, idata)` from the source, returning
`(returnSize, host output)`.  `memBool`, `memIdx`, `memOut`, `memIdata` are the
allocator contents of the slots of `dev_bool`, `dev_indices`, `dev_odata`,
`dev_idata` that the code never writes: the kernel `kernMapToBoolean` and the
two `cudaMemcpy`s of `n` elements leave the pad regions `[n, arraySize)` of
`dev_bool`, `dev_indices`, `dev_idata` untouched, and `dev_odata` starts fully
uninitialized. -/
def compact (n : ℕ) (idata : List ℤ) (memBool memIdx memOut memIdata : ℕ → ℤ) :
    ℤ × List ℤ :=
  let L := 2 ^ ilog2ceil n
  let eff := min (gridThreads n) L
  let devIdata := idata.take n ++ (List.range (L - n)).map memIdata
  let devBool := kernMapToBoolean n devIdata ++ (List.range (L - n)).map memBool
  let devIndices := devBool.take n ++ (List.range (L - n)).map memIdx
  let scanned := upDownSweep L devIndices
  let returnSize := scanned.getD (L - 1) 0 + devBool.getD (L - 1) 0
  let devOdata := (List.range returnSize.toNat).map memOut
  (returnSize, kernScatterCommon eff devOdata devIdata devBool scanned)

/-- The unsigned 32-bit pattern of an `int` value. -/
def toUInt32Nat (x : ℤ) : ℕ := (x % 2 ^ 32).toNat

/-- Reinterpret an unsigned 32-bit pattern as a signed (two's complement)
value. -/
def toSigned32 (u : ℕ) : ℤ := if u.testBit 31 then (u : ℤ) - 2 ^ 32 else u

/-- The per-element expression of `kernComputeE`:
`(idata[index] << (31 - i)) >> 31 ? 0 : 1`, with a 32-bit wraparound left
shift and an arithmetic (sign-extending, i.e. flooring) right shift. -/
def kernComputeEVal (i : ℕ) (x : ℤ) : ℤ :=
  if Int.fdiv (toSigned32 (toUInt32Nat x * 2 ^ (31 - i) % 2 ^ 32)) (2 ^ 31) ≠ 0 then 0
  else 1

/-- The per-pass device state of `radixSort`.  `dev_f` is rebuilt from scratch
every pass (a full-buffer copy of `e` followed by the scan), so it is not
threaded through. -/
structure RadixState where
  idata : List ℤ
  odata : List ℤ
  e : List ℤ
  t : List ℤ
  dst : List ℤ

/-- The contents of `dev_e` just before the scan of pass `i`: `kernComputeE`
writes indices `[0, n)` (its launch covers them all), positions `[n, L)` keep
whatever `dev_e` held before, and then — only when `arraySize > n` — the
source `cudaMemset`s the single slot `L - 1` to zero. -/
def radixEArray (n L i : ℕ) (idata e : List ℤ) : List ℤ :=
  let e1 := (List.range L).map fun p =>
    if p < n then kernComputeEVal i (idata.getD p 0) else e.getD p 0
  if n < L then e1.set (L - 1) 0 else e1

/-- One pass (bit `i`) of `radixSort`: compute `e`, scan it into `f`, read
back `totalFalse`, compute `t` and `d` (`kernComputeT`, `kernComputeD`),
scatter (`kernScatter` in `efficient.cu`, unconditional), and copy
`dev_odata` back over `dev_idata`.  The launch of the `t`/`d`/scatter kernels
provides `gridThreads n` threads against an `arraySize` guard, so they cover
indices `[0, eff)` with `eff = min (gridThreads n) L`; slots of `dev_t`,
`dev_d` beyond `eff` keep their previous contents. -/
def radixPass (n L eff i : ℕ) (s : RadixState) : RadixState :=
  let e2 := radixEArray n L i s.idata s.e
  let f := upDownSweep L e2
  let totalFalse := e2.getD (L - 1) 0 + f.getD (L - 1) 0
  let t := (List.range L).map fun p =>
    if p < eff then (p : ℤ) - f.getD p 0 + totalFalse else s.t.getD p 0
  let dst := (List.range L).map fun p =>
    if p < eff then (if e2.getD p 0 = 0 then t.getD p 0 else f.getD p 0)
    else s.dst.getD p 0
  let od := (List.range eff).foldl
    (fun acc idx => acc.set (dst.getD idx 0).toNat (s.idata.getD idx 0)) s.odata
  { idata := od, odata := od, e := e2, t := t, dst := dst }

/-- `radixSort(n, odata, idata)` from the source: 32 LSB-first passes, then a
host copy of all `arraySize = 2 ^ ilog2ceil n` elements of `dev_odata` into
`odata`.  `memIdata`, `memOdata`, `memE`, `memT`, `memD` are the allocator
contents of the five device buffers the code never fully initializes. -/
def radixSort (n : ℕ) (idata : List ℤ)
    (memIdata memOdata memE memT memD : ℕ → ℤ) : List ℤ :=
  let L := 2 ^ ilog2ceil n
  let eff := min (gridThreads n) L
  let s0 : RadixState :=
    { idata := idata.take n ++ (List.range (L - n)).map memIdata
      odata := (List.range L).map memOdata
      e := (List.range L).map memE
      t := (List.range L).map memT
      dst := (List.range L).map memD }
  ((List.range 32).foldl (fun s i => radixPass n L eff i s) s0).odata

end StreamCompaction

/-! ## Basic helper lemmas -/

namespace StreamCompaction

lemma getD_map_range (L : ℕ) (f : ℕ → ℤ) (p : ℕ) (hp : p < L) :
    ((List.range L).map f).getD p 0 = f p := by
  rw [List.getD_eq_getElem _ _ (by simpa using hp)]
  simp

lemma filter_range_headD (N k : ℕ) (p : ℕ → Bool) (hkN : k < N) (hpk : p k = true)
    (hmin : ∀ j, j < k → p j = false) :
    ((List.range N).filter p).headD 0 = k := by
  have hsplit : N = (k + 1) + (N - (k + 1)) := by omega
  have h1 : (List.range k).filter p = [] := by
    rw [List.filter_eq_nil]
    intro a ha
    simp only [List.mem_range] at ha
    simp [hmin a ha]
  rw [hsplit, List.range_add, List.filter_append, List.range_succ, List.filter_append, h1]
  simp [hpk]

lemma ilog2ceil_eq (n k : ℕ) (h1 : n ≤ 2 ^ k) (h2 : ∀ j, j < k → 2 ^ j < n) :
    ilog2ceil n = k := by
  have hk_le : k ≤ n := by
    by_contra hcon
    push_neg at hcon
    have hn := h2 n hcon
    have hn2 := Nat.lt_two_pow n
    omega
  unfold ilog2ceil
  apply filter_range_headD
  · omega
  · simpa using h1
  · intro j hj
    simpa using Nat.not_le.mpr (h2 j hj)

lemma ilog2ceil_le_pow (n : ℕ) : n ≤ 2 ^ ilog2ceil n := by
  have hex : ∃ k, n ≤ 2 ^ k := ⟨n, (Nat.lt_two_pow n).le⟩
  have heq : ilog2ceil n = Nat.find hex :=
    ilog2ceil_eq n (Nat.find hex) (Nat.find_spec hex)
      (fun j hj => by have := Nat.find_min hex hj; omega)
  rw [heq]
  exact Nat.find_spec hex

lemma ilog2ceil_pow (k : ℕ) : ilog2ceil (2 ^ k) = k :=
  ilog2ceil_eq (2 ^ k) k le_rfl
    (fun j hj => Nat.pow_lt_pow_right one_lt_two hj)

lemma ilog2ceil_eq_clog (n : ℕ) : ilog2ceil n = Nat.clog 2 n :=
  ilog2ceil_eq n _ (Nat.le_pow_clog one_lt_two n)
    (fun j hj => (Nat.pow_lt_iff_lt_clog one_lt_two).mpr hj)

end StreamCompaction

/-! ## Lengths and pointwise descriptions of the sweep kernels -/

namespace StreamCompaction

@[simp] lemma length_kernUpSweep (n d : ℕ) (x : List ℤ) :
    (kernUpSweep n d x).length = x.length := by
  simp [kernUpSweep]

@[simp] lemma length_kernDownSweep (n d : ℕ) (x : List ℤ) :
    (kernDownSweep n d x).length = x.length := by
  simp [kernDownSweep]

@[simp] lemma length_zeroLast (n : ℕ) (x : List ℤ) :
    (zeroLast n x).length = x.length := by
  simp [zeroLast]

@[simp] lemma length_upSweepLevels (n m : ℕ) (x : List ℤ) :
    (upSweepLevels n m x).length = x.length := by
  induction m with
  | zero => rfl
  | succ m ih => simp [upSweepLevels, ih]

@[simp] lemma length_downSweepLevels (n : ℕ) :
    ∀ (m : ℕ) (x : List ℤ), (downSweepLevels n m x).length = x.length := by
  intro m
  induction m with
  | zero => intro x; rfl
  | succ m ih => intro x; rw [downSweepLevels, ih, length_kernDownSweep]

@[simp] lemma length_upDownSweep (n : ℕ) (x : List ℤ) :
    (upDownSweep n x).length = x.length := by
  simp [upDownSweep]

lemma kernUpSweep_getD (n d : ℕ) (x : List ℤ) (p : ℕ) (hp : p < x.length) :
    (kernUpSweep n d x).getD p 0 =
      if 2 ^ (d + 1) ≤ p + 1 ∧ (p + 1) % 2 ^ (d + 1) = 0 ∧ p + 1 - 2 ^ (d + 1) < n then
        x.getD p 0 + x.getD (p - 2 ^ d) 0
      else
        x.getD p 0 := by
  rw [kernUpSweep, getD_map_range x.length _ p hp]

lemma kernDownSweep_getD (n d : ℕ) (x : List ℤ) (p : ℕ) (hp : p < x.length) :
    (kernDownSweep n d x).getD p 0 =
      if 2 ^ d ≤ p + 1 ∧ (p + 1) % 2 ^ (d + 1) = 2 ^ d ∧ p + 1 - 2 ^ d < n then
        x.getD (p + 2 ^ d) 0
      else if 2 ^ (d + 1) ≤ p + 1 ∧ (p + 1) % 2 ^ (d + 1) = 0 ∧ p + 1 - 2 ^ (d + 1) < n then
        x.getD p 0 + x.getD (p - 2 ^ d) 0
      else
        x.getD p 0 := by
  rw [kernDownSweep, getD_map_range x.length _ p hp]

/-- The pointwise up-sweep guard holds at position `p` exactly when `p` is the
write target `i + 2^(d+1) - 1` of an active source thread `i`
(`i < n` and `i % 2^(d+1) == 0`). -/
lemma kernUpSweep_guard_iff (n d p : ℕ) :
    (2 ^ (d + 1) ≤ p + 1 ∧ (p + 1) % 2 ^ (d + 1) = 0 ∧ p + 1 - 2 ^ (d + 1) < n) ↔
      ∃ i, i < n ∧ i % 2 ^ (d + 1) = 0 ∧ p = i + 2 ^ (d + 1) - 1 := by
  have hq : 0 < 2 ^ (d + 1) := Nat.pos_pow_of_pos _ (by norm_num)
  constructor
  · rintro ⟨h1, h2, h3⟩
    refine ⟨p + 1 - 2 ^ (d + 1), h3, ?_, by omega⟩
    obtain ⟨c, hc⟩ := Nat.dvd_of_mod_eq_zero h2
    have hc1 : 1 ≤ c := by
      rcases Nat.eq_zero_or_pos c with h | h
      · subst h
        simp at hc
      · exact h
    obtain ⟨c1, rfl⟩ : ∃ c1, c = c1 + 1 := ⟨c - 1, by omega⟩
    rw [hc, Nat.mul_succ]
    have : 2 ^ (d + 1) * c1 + 2 ^ (d + 1) - 2 ^ (d + 1) = 2 ^ (d + 1) * c1 := by omega
    rw [this]
    exact Nat.mul_mod_right _ _
  · rintro ⟨i, hin, hmod, rfl⟩
    have h1 : i + 2 ^ (d + 1) - 1 + 1 = i + 2 ^ (d + 1) := by omega
    refine ⟨by omega, ?_, by omega⟩
    rw [h1, Nat.add_mod, hmod, Nat.mod_self]
    simp

/-- The first pointwise down-sweep guard holds at `p` exactly when `p` is the
left target `i + 2^d - 1` of an active source thread `i`. -/
lemma kernDownSweep_left_guard_iff (n d p : ℕ) :
    (2 ^ d ≤ p + 1 ∧ (p + 1) % 2 ^ (d + 1) = 2 ^ d ∧ p + 1 - 2 ^ d < n) ↔
      ∃ i, i < n ∧ i % 2 ^ (d + 1) = 0 ∧ p = i + 2 ^ d - 1 := by
  have hd : 0 < 2 ^ d := Nat.pos_pow_of_pos _ (by norm_num)
  have hdd : 2 ^ d < 2 ^ (d + 1) := Nat.pow_lt_pow_right one_lt_two (by omega)
  constructor
  · rintro ⟨h1, h2, h3⟩
    refine ⟨p + 1 - 2 ^ d, h3, ?_, by omega⟩
    have hrep := Nat.div_add_mod (p + 1) (2 ^ (d + 1))
    rw [h2] at hrep
    have : p + 1 - 2 ^ d = 2 ^ (d + 1) * ((p + 1) / 2 ^ (d + 1)) := by omega
    rw [this]
    exact Nat.mul_mod_right _ _
  · rintro ⟨i, hin, hmod, rfl⟩
    have h1 : i + 2 ^ d - 1 + 1 = i + 2 ^ d := by omega
    refine ⟨by omega, ?_, by omega⟩
    rw [h1, Nat.add_mod, hmod, Nat.mod_eq_of_lt hdd]
    simpa using Nat.mod_eq_of_lt hdd

/-- The second pointwise down-sweep guard holds at `p` exactly when `p` is the
right target `i + 2^(d+1) - 1` of an active source thread `i`. -/
lemma kernDownSweep_right_guard_iff (n d p : ℕ) :
    (2 ^ (d + 1) ≤ p + 1 ∧ (p + 1) % 2 ^ (d + 1) = 0 ∧ p + 1 - 2 ^ (d + 1) < n) ↔
      ∃ i, i < n ∧ i % 2 ^ (d + 1) = 0 ∧ p = i + 2 ^ (d + 1) - 1 :=
  kernUpSweep_guard_iff n d p

/-- A number is `2^e` mod `2^(e+1)` exactly when its 2-adic valuation is
exactly `e`. -/
lemma mod_two_pow_succ_eq_iff (a e : ℕ) :
    a % 2 ^ (e + 1) = 2 ^ e ↔ 2 ^ e ∣ a ∧ ¬ 2 ^ (e + 1) ∣ a := by
  have hd : 0 < 2 ^ e := Nat.pos_pow_of_pos _ (by norm_num)
  have hdd : 2 ^ e < 2 ^ (e + 1) := Nat.pow_lt_pow_right one_lt_two (by omega)
  have hpow : (2 : ℕ) ^ (e + 1) = 2 ^ e * 2 := pow_succ 2 e
  constructor
  · intro h
    have hrep := Nat.div_add_mod a (2 ^ (e + 1))
    rw [h] at hrep
    constructor
    · refine ⟨2 * (a / 2 ^ (e + 1)) + 1, ?_⟩
      rw [Nat.mul_add, Nat.mul_one, ← Nat.mul_assoc, ← hpow]
      omega
    · intro hdvd2
      have h3 : 2 ^ (e + 1) ∣ 2 ^ e := by
        have h4 : 2 ^ (e + 1) ∣ 2 ^ (e + 1) * (a / 2 ^ (e + 1)) := dvd_mul_right _ _
        have h5 : (2 : ℕ) ^ e = a - 2 ^ (e + 1) * (a / 2 ^ (e + 1)) := by omega
        rw [h5]
        exact Nat.dvd_sub' hdvd2 h4
      have := Nat.le_of_dvd hd h3
      omega
  · rintro ⟨⟨c, hc⟩, hnd⟩
    rcases Nat.even_or_odd c with ⟨t, ht⟩ | ⟨t, ht⟩
    · exfalso
      apply hnd
      refine ⟨t, ?_⟩
      rw [hc, ht, hpow]
      ring
    · rw [hc, ht]
      have : 2 ^ e * (2 * t + 1) = 2 ^ (e + 1) * t + 2 ^ e := by
        rw [hpow]; ring
      rw [this, Nat.mul_add_mod]
      exact Nat.mod_eq_of_lt hdd

end StreamCompaction

/-! ## Correctness of the up-sweep / down-sweep scan core

Invariants (for a buffer of length `L = 2^k`):
* after up-sweep levels `0, …, m-1`, every position `p` with `2^m ∣ p+1`
  holds the sum of the input segment `[p+1-2^m, p+1)`;
* positions whose `p+1` has 2-adic valuation exactly `e` are never touched by
  levels `≥ e`, so at the end of the up-sweep they hold the segment sum
  `[p+1-2^e, p+1)`;
* before down-sweep level `m-1` runs, every position `p` with `2^m ∣ p+1`
  holds the exclusive prefix sum of the input up to `p+1-2^m`, and the
  untouched up-sweep values above are still in place; each level preserves
  this, and after level `0` every position holds its exclusive prefix sum. -/

namespace StreamCompaction

lemma upSweepLevels_getD_dvd (k : ℕ) (x : List ℤ) (hx : x.length = 2 ^ k) :
    ∀ m, m ≤ k → ∀ p, p < 2 ^ k → 2 ^ m ∣ p + 1 →
      (upSweepLevels (2 ^ k) m x).getD p 0 =
        ∑ j ∈ Finset.Ico (p + 1 - 2 ^ m) (p + 1), x.getD j 0 := by
  intro m
  induction m with
  | zero =>
    intro _ p hp _
    have h1 : p + 1 - 2 ^ 0 = p := by omega
    have h2 : Finset.Ico p (p + 1) = {p} := by
      ext a
      simp [Nat.lt_succ_iff]
    rw [upSweepLevels, h1, h2, Finset.sum_singleton]
  | succ m ih =>
    intro hm p hp hdvd
    have hmk : m ≤ k := Nat.le_of_succ_le hm
    have h1m : 1 ≤ (2 : ℕ) ^ m := Nat.one_le_two_pow
    have hpow : (2 : ℕ) ^ (m + 1) = 2 ^ m + 2 ^ m := by rw [pow_succ]; omega
    have hle : 2 ^ (m + 1) ≤ p + 1 := Nat.le_of_dvd (Nat.succ_pos p) hdvd
    have hplen : p < (upSweepLevels (2 ^ k) m x).length := by
      rw [length_upSweepLevels, hx]; exact hp
    rw [upSweepLevels, kernUpSweep_getD _ _ _ p hplen, if_pos
      ⟨hle, Nat.mod_eq_zero_of_dvd hdvd, by omega⟩]
    have h2m : (2 : ℕ) ^ m ∣ p + 1 := dvd_trans (pow_dvd_pow 2 (Nat.le_succ m)) hdvd
    have e1 := ih hmk p hp h2m
    have hq : p - 2 ^ m + 1 = p + 1 - 2 ^ m := by omega
    have hq2 : p - 2 ^ m < 2 ^ k := by omega
    have hdq : (2 : ℕ) ^ m ∣ p - 2 ^ m + 1 := by
      obtain ⟨c, hc⟩ := hdvd
      refine ⟨2 * c - 1, ?_⟩
      have hmul : 2 ^ m * (2 * c - 1) = 2 ^ (m + 1) * c - 2 ^ m := by
        rw [Nat.mul_sub, Nat.mul_one, ← Nat.mul_assoc, ← pow_succ]
      rw [hmul]
      omega
    have e2 := ih hmk (p - 2 ^ m) hq2 hdq
    rw [hq] at e2
    have hlo : p + 1 - 2 ^ m - 2 ^ m = p + 1 - 2 ^ (m + 1) := by omega
    rw [hlo] at e2
    rw [e1, e2, add_comm]
    exact Finset.sum_Ico_consecutive _ (by omega) (by omega)

lemma upSweepLevels_getD_frame (L : ℕ) (x : List ℤ) (m1 : ℕ) :
    ∀ m2, m1 ≤ m2 → ∀ p, p < x.length → ¬ 2 ^ (m1 + 1) ∣ p + 1 →
      (upSweepLevels L m2 x).getD p 0 = (upSweepLevels L m1 x).getD p 0 := by
  intro m2 hm
  induction m2, hm using Nat.le_induction with
  | base => intro p _ _; rfl
  | succ m hm ih =>
    intro p hp hnd
    have hplen : p < (upSweepLevels L m x).length := by simpa
    rw [upSweepLevels, kernUpSweep_getD _ _ _ p hplen, if_neg, ih p hp hnd]
    rintro ⟨h1, h2, h3⟩
    exact hnd (dvd_trans (pow_dvd_pow 2 (by omega)) (Nat.dvd_of_mod_eq_zero h2))

lemma upSweepLevels_getD_exact (k : ℕ) (x : List ℤ) (hx : x.length = 2 ^ k) (e p : ℕ)
    (he : e ≤ k) (hp : p < 2 ^ k) (hmod : (p + 1) % 2 ^ (e + 1) = 2 ^ e) :
    (upSweepLevels (2 ^ k) k x).getD p 0 =
      ∑ j ∈ Finset.Ico (p + 1 - 2 ^ e) (p + 1), x.getD j 0 := by
  obtain ⟨hdvd, hndvd⟩ := (mod_two_pow_succ_eq_iff _ _).mp hmod
  rw [upSweepLevels_getD_frame (2 ^ k) x e k he p (by rw [hx]; exact hp) hndvd]
  exact upSweepLevels_getD_dvd k x hx e he p hp hdvd

lemma zeroLast_getD_last (L : ℕ) (x : List ℤ) (hx : x.length = L) (hL : 0 < L) :
    (zeroLast L x).getD (L - 1) 0 = 0 := by
  unfold zeroLast
  rw [List.getD_eq_getElem _ _ (by rw [List.length_set, hx]; omega), List.getElem_set]
  simp

lemma zeroLast_getD_ne (L : ℕ) (x : List ℤ) (q : ℕ) (hne : q ≠ L - 1) :
    (zeroLast L x).getD q 0 = x.getD q 0 := by
  unfold zeroLast
  by_cases hq : q < x.length
  · have hni : ¬(L - 1 = q) := fun h => hne h.symm
    rw [List.getD_eq_getElem _ _ (by rw [List.length_set]; exact hq),
        List.getD_eq_getElem _ _ hq, List.getElem_set, if_neg hni]
  · rw [List.getD_eq_default _ _ (by rw [List.length_set]; omega),
        List.getD_eq_default _ _ (by omega)]

end StreamCompaction

namespace StreamCompaction

lemma downSweepLevels_getD (k : ℕ) (x : List ℤ) :
    ∀ m, m ≤ k → ∀ z : List ℤ, z.length = 2 ^ k →
      (∀ p, p < 2 ^ k → 2 ^ m ∣ p + 1 →
        z.getD p 0 = ∑ j ∈ Finset.Ico 0 (p + 1 - 2 ^ m), x.getD j 0) →
      (∀ p, p < 2 ^ k → ∀ e, e < m → (p + 1) % 2 ^ (e + 1) = 2 ^ e →
        z.getD p 0 = ∑ j ∈ Finset.Ico (p + 1 - 2 ^ e) (p + 1), x.getD j 0) →
      ∀ p, p < 2 ^ k →
        (downSweepLevels (2 ^ k) m z).getD p 0 = ∑ j ∈ Finset.Ico 0 p, x.getD j 0 := by
  intro m
  induction m with
  | zero =>
    intro _ z hz hA _ p hp
    have h := hA p hp (one_dvd _)
    have h1 : p + 1 - 2 ^ 0 = p := by omega
    rw [h1] at h
    simpa [downSweepLevels] using h
  | succ m ih =>
    intro hm z hz hA hB p hp
    have hmk : m ≤ k := Nat.le_of_succ_le hm
    have hm1k : m + 1 ≤ k := hm
    have h1m : 1 ≤ (2 : ℕ) ^ m := Nat.one_le_two_pow
    have hpow : (2 : ℕ) ^ (m + 1) = 2 ^ m + 2 ^ m := by rw [pow_succ]; omega
    rw [downSweepLevels]
    refine ih hmk (kernDownSweep (2 ^ k) m z) (by simp [hz]) ?_ ?_ p hp
    · -- prefix values at multiples of 2^m after running level m
      intro q hq hdvdq
      have hqlen : q < z.length := by rw [hz]; exact hq
      have h2mle : 2 ^ m ≤ q + 1 := Nat.le_of_dvd (Nat.succ_pos q) hdvdq
      by_cases h2 : 2 ^ (m + 1) ∣ q + 1
      · -- q is the right target of a thread of level m
        have h2le : 2 ^ (m + 1) ≤ q + 1 := Nat.le_of_dvd (Nat.succ_pos q) h2
        have hg1 : ¬(2 ^ m ≤ q + 1 ∧ (q + 1) % 2 ^ (m + 1) = 2 ^ m ∧
            q + 1 - 2 ^ m < 2 ^ k) := by
          rintro ⟨-, g2, -⟩
          exact ((mod_two_pow_succ_eq_iff (q + 1) m).mp g2).2 h2
        have hg2 : 2 ^ (m + 1) ≤ q + 1 ∧ (q + 1) % 2 ^ (m + 1) = 0 ∧
            q + 1 - 2 ^ (m + 1) < 2 ^ k :=
          ⟨h2le, Nat.mod_eq_zero_of_dvd h2, by omega⟩
        rw [kernDownSweep_getD _ _ _ q hqlen, if_neg hg1, if_pos hg2]
        have eA := hA q hq h2
        have hq2 : q - 2 ^ m < 2 ^ k := by omega
        have hmod2 : (q - 2 ^ m + 1) % 2 ^ (m + 1) = 2 ^ m := by
          apply (mod_two_pow_succ_eq_iff _ _).mpr
          constructor
          · obtain ⟨c, hc⟩ := h2
            refine ⟨2 * c - 1, ?_⟩
            have hmul : 2 ^ m * (2 * c - 1) = 2 ^ (m + 1) * c - 2 ^ m := by
              rw [Nat.mul_sub, Nat.mul_one, ← Nat.mul_assoc, ← pow_succ]
            rw [hmul]
            omega
          · intro hcon
            have hd1 : 2 ^ (m + 1) ∣ (q + 1) - (q - 2 ^ m + 1) := Nat.dvd_sub' h2 hcon
            have heq : (q + 1) - (q - 2 ^ m + 1) = 2 ^ m := by omega
            rw [heq] at hd1
            have := Nat.le_of_dvd (by positivity) hd1
            omega
        have eB := hB (q - 2 ^ m) hq2 m (Nat.lt_succ_self m) hmod2
        have hq0 : q - 2 ^ m + 1 - 2 ^ m = q + 1 - 2 ^ (m + 1) := by omega
        have hq1 : q - 2 ^ m + 1 = q + 1 - 2 ^ m := by omega
        rw [hq0, hq1] at eB
        rw [eA, eB]
        exact Finset.sum_Ico_consecutive _ (by omega) (by omega)
      · -- q is the left target of a thread of level m
        have hmodq : (q + 1) % 2 ^ (m + 1) = 2 ^ m :=
          (mod_two_pow_succ_eq_iff _ _).mpr ⟨hdvdq, h2⟩
        have hg1 : 2 ^ m ≤ q + 1 ∧ (q + 1) % 2 ^ (m + 1) = 2 ^ m ∧
            q + 1 - 2 ^ m < 2 ^ k := ⟨h2mle, hmodq, by omega⟩
        rw [kernDownSweep_getD _ _ _ q hqlen, if_pos hg1]
        have hrep := Nat.div_add_mod (q + 1) (2 ^ (m + 1))
        rw [hmodq] at hrep
        have hdvdq2 : 2 ^ (m + 1) ∣ q + 2 ^ m + 1 := by
          refine ⟨(q + 1) / 2 ^ (m + 1) + 1, ?_⟩
          rw [Nat.mul_add, Nat.mul_one]
          omega
        have hqk : q + 2 ^ m < 2 ^ k := by
          by_contra hcon
          push_neg at hcon
          have hdk : 2 ^ (m + 1) ∣ 2 ^ k := pow_dvd_pow 2 hm1k
          have hsub : 2 ^ (m + 1) ∣ (q + 2 ^ m + 1) - 2 ^ k := Nat.dvd_sub' hdvdq2 hdk
          have hpos : 0 < (q + 2 ^ m + 1) - 2 ^ k := by omega
          have := Nat.le_of_dvd hpos hsub
          omega
        have eA := hA (q + 2 ^ m) hqk hdvdq2
        have heq : q + 2 ^ m + 1 - 2 ^ (m + 1) = q + 1 - 2 ^ m := by omega
        rw [heq] at eA
        exact eA
    · -- positions of lower exact valuation are untouched by level m
      intro q hq e helt hemod
      have hqlen : q < z.length := by rw [hz]; exact hq
      obtain ⟨hedvd, hendvd⟩ := (mod_two_pow_succ_eq_iff _ _).mp hemod
      have hg1 : ¬(2 ^ m ≤ q + 1 ∧ (q + 1) % 2 ^ (m + 1) = 2 ^ m ∧
          q + 1 - 2 ^ m < 2 ^ k) := by
        rintro ⟨-, g2, -⟩
        have hh := ((mod_two_pow_succ_eq_iff (q + 1) m).mp g2).1
        exact hendvd (dvd_trans (pow_dvd_pow 2 (by omega)) hh)
      have hg2 : ¬(2 ^ (m + 1) ≤ q + 1 ∧ (q + 1) % 2 ^ (m + 1) = 0 ∧
          q + 1 - 2 ^ (m + 1) < 2 ^ k) := by
        rintro ⟨-, g2, -⟩
        exact hendvd (dvd_trans (pow_dvd_pow 2 (by omega)) (Nat.dvd_of_mod_eq_zero g2))
      rw [kernDownSweep_getD _ _ _ q hqlen, if_neg hg1, if_neg hg2]
      exact hB q hq e (by omega) hemod

end StreamCompaction

namespace StreamCompaction

lemma upSweepLevels_total (k : ℕ) (x : List ℤ) (hx : x.length = 2 ^ k) :
    (upSweepLevels (2 ^ k) k x).getD (2 ^ k - 1) 0 =
      ∑ j ∈ Finset.Ico 0 (2 ^ k), x.getD j 0 := by
  have h1 : 1 ≤ (2 : ℕ) ^ k := Nat.one_le_two_pow
  have h2 : 2 ^ k - 1 + 1 = 2 ^ k := by omega
  have h := upSweepLevels_getD_dvd k x hx k le_rfl (2 ^ k - 1) (by omega)
    (by rw [h2])
  rw [h2] at h
  have h3 : 2 ^ k - 2 ^ k = 0 := by omega
  rw [h3] at h
  exact h

lemma upDownSweep_getD_eq (k : ℕ) (x : List ℤ) (hx : x.length = 2 ^ k) (p : ℕ)
    (hp : p < 2 ^ k) :
    (upDownSweep (2 ^ k) x).getD p 0 = ∑ j ∈ Finset.Ico 0 p, x.getD j 0 := by
  have h1 : 1 ≤ (2 : ℕ) ^ k := Nat.one_le_two_pow
  rw [upDownSweep, ilog2ceil_pow]
  refine downSweepLevels_getD k x k le_rfl _ (by simp [hx]) ?_ ?_ p hp
  · intro q hq hdvd
    have hle := Nat.le_of_dvd (Nat.succ_pos q) hdvd
    have hqe : q = 2 ^ k - 1 := by omega
    subst hqe
    rw [zeroLast_getD_last (2 ^ k) _ (by simp [hx]) (by omega)]
    have h2 : 2 ^ k - 1 + 1 - 2 ^ k = 0 := by omega
    rw [h2]
    simp
  · intro q hq e helt hemod
    have hne : q ≠ 2 ^ k - 1 := by
      intro hcon
      subst hcon
      have h2 : 2 ^ k - 1 + 1 = 2 ^ k := by omega
      rw [h2] at hemod
      have hdvd2 : 2 ^ (e + 1) ∣ 2 ^ k := pow_dvd_pow 2 (by omega)
      exact ((mod_two_pow_succ_eq_iff (2 ^ k) e).mp hemod).2 hdvd2
    rw [zeroLast_getD_ne (2 ^ k) _ q hne]
    exact upSweepLevels_getD_exact k x hx e q (by omega) hq hemod

lemma getD_take (l : List ℤ) (n i : ℕ) (h : i < n) :
    (l.take n).getD i 0 = l.getD i 0 := by
  by_cases hi : i < l.length
  · rw [List.getD_eq_getElem _ _ (by simp; omega), List.getD_eq_getElem _ _ hi]
    simp
  · rw [List.getD_eq_default _ _ (by simp; omega), List.getD_eq_default _ _ (by omega)]

lemma scanPaddedInput_length (n : ℕ) (idata : List ℤ) (mem : ℕ → ℤ)
    (h : idata.length = n) :
    (scanPaddedInput n idata mem).length = 2 ^ ilog2ceil n := by
  have := ilog2ceil_le_pow n
  simp [scanPaddedInput, h]
  omega

lemma scanPaddedInput_getD (n : ℕ) (idata : List ℤ) (mem : ℕ → ℤ)
    (h : idata.length = n) (j : ℕ) (hj : j < n) :
    (scanPaddedInput n idata mem).getD j 0 = idata.getD j 0 := by
  rw [scanPaddedInput, List.getD_append _ _ _ _ (by simp [h]; omega)]
  exact getD_take idata n j hj

end StreamCompaction

/-! ## Claim theorems: scan core and scan API -/

namespace StreamCompaction

/-- C1: Scan Core in-place correctness.  For every buffer `x` of length
`L = 2^k` of integers, `upDownSweep L x` (up-sweep levels `0 … k-1`, plain
overwrite of the last slot with `0`, down-sweep levels `k-1 … 0`) turns the
buffer into its exclusive prefix sum, and directly after the last up-sweep
level position `L - 1` holds the inclusive total of all `L` elements. -/
theorem upDownSweep_blelloch (k : ℕ) (x : List ℤ) (hx : x.length = 2 ^ k) :
    (∀ p, p < 2 ^ k →
      (upDownSweep (2 ^ k) x).getD p 0 = ∑ j ∈ Finset.range p, x.getD j 0) ∧
    (upSweepLevels (2 ^ k) k x).getD (2 ^ k - 1) 0 =
      ∑ j ∈ Finset.range (2 ^ k), x.getD j 0 := by
  constructor
  · intro p hp
    rw [Finset.range_eq_Ico]
    exact upDownSweep_getD_eq k x hx p hp
  · rw [Finset.range_eq_Ico]
    exact upSweepLevels_total k x hx

theorem upDownSweep_blelloch_witness :
    (upDownSweep (2 ^ 2) ([3, 1, 4, 1] : List ℤ)).getD 3 0 = 8 ∧
    (upSweepLevels (2 ^ 2) 2 ([3, 1, 4, 1] : List ℤ)).getD (2 ^ 2 - 1) 0 = 9 := by
  have h := upDownSweep_blelloch 2 ([3, 1, 4, 1] : List ℤ) (by decide)
  constructor
  · have h1 := h.1 3 (by norm_num)
    rw [h1]
    decide
  · rw [h.2]
    decide

/-- C2: `scan` end-to-end correctness.  For an input of length `n`, the output
has length `n`, `out[0] = 0` (the `i = 0` case of the formula), and
`out[i] = in[0] + … + in[i-1]` for every `i < n` — for every possible content
`mem` of the uninitialized pad slots. -/
theorem scan_spec (n : ℕ) (idata : List ℤ) (mem : ℕ → ℤ) (h : idata.length = n) :
    (scan n idata mem).length = n ∧
    ∀ i, i < n →
      (scan n idata mem).getD i 0 = ∑ j ∈ Finset.range i, idata.getD j 0 := by
  have hlen := scanPaddedInput_length n idata mem h
  have hnle := ilog2ceil_le_pow n
  constructor
  · rw [scan, List.length_take, length_upDownSweep, hlen]
    omega
  · intro i hi
    rw [scan, getD_take _ n i hi,
      upDownSweep_getD_eq (ilog2ceil n) _ hlen i (by omega), Finset.range_eq_Ico]
    refine Finset.sum_congr rfl ?_
    intro j hj
    rw [Finset.mem_Ico] at hj
    exact scanPaddedInput_getD n idata mem h j (by omega)

theorem scan_spec_witness :
    (scan 4 ([1, 2, 3, 4] : List ℤ) fun _ => 9).getD 3 0 = 6 := by
  have h := (scan_spec 4 ([1, 2, 3, 4] : List ℤ) (fun _ => 9) (by decide)).2 3 (by norm_num)
  rw [h]
  decide

end StreamCompaction

/-! ## Claim theorem: radix bit classification -/

namespace StreamCompaction

/-- C8: Radix bit classification.  For every `int` `x` (any integer; only its
32-bit pattern `toUInt32Nat x` matters) and bit position `i < 32`, the
expression `(x << (31-i)) >> 31 ? 0 : 1` of `kernComputeE` — wraparound left
shift, arithmetic right shift — yields `1` when bit `i` of `x` is `0` and `0`
when bit `i` of `x` is `1`. -/
theorem kernComputeE_bit (x : ℤ) (i : ℕ) (hi : i < 32) :
    kernComputeEVal i x = if (toUInt32Nat x).testBit i then 0 else 1 := by
  rw [kernComputeEVal]
  set s := toUInt32Nat x * 2 ^ (31 - i) % 2 ^ 32 with hs
  have hslt : s < 2 ^ 32 := Nat.mod_lt _ (by norm_num)
  have hbit : s.testBit 31 = (toUInt32Nat x).testBit i := by
    rw [hs, Nat.testBit_mod_two_pow, ← Nat.shiftLeft_eq, Nat.testBit_shiftLeft]
    have h31 : 31 - i ≤ 31 := by omega
    have h31b : 31 - (31 - i) = i := by omega
    simp [h31, h31b]
  rw [toSigned32, hbit]
  by_cases hb : (toUInt32Nat x).testBit i
  · have hge : 2 ^ 31 ≤ s := Nat.testBit_implies_ge (by rw [hbit]; exact hb)
    have hv : Int.fdiv ((s : ℤ) - 2 ^ 32) (2 ^ 31) = -1 := by
      rw [Int.fdiv_eq_ediv _ (by norm_num)]
      have h1 : (s : ℤ) < 2 ^ 32 := by exact_mod_cast hslt
      have h2 : (2 : ℤ) ^ 31 ≤ (s : ℤ) := by exact_mod_cast hge
      omega
    rw [if_pos hb, hv]
    simp [hb]
  · have hsb : s.testBit 31 = false := by
      rw [hbit]
      exact Bool.not_eq_true _ ▸ (by simpa using hb)
    have hlt31 : s < 2 ^ 31 := by
      rw [Nat.testBit_to_div_mod] at hsb
      simp only [decide_eq_false_iff_not] at hsb
      omega
    have hv : Int.fdiv ((s : ℤ)) (2 ^ 31) = 0 := by
      rw [Int.fdiv_eq_ediv _ (by norm_num)]
      have h1 : (s : ℤ) < 2 ^ 31 := by exact_mod_cast hlt31
      have h2 : (0 : ℤ) ≤ (s : ℤ) := by positivity
      omega
    rw [if_neg hb, hv]
    simp [hb]

theorem kernComputeE_bit_witness :
    kernComputeEVal 2 (5 : ℤ) = 0 ∧ kernComputeEVal 1 (5 : ℤ) = 1 := by
  constructor
  · have h := kernComputeE_bit 5 2 (by norm_num)
    rw [h]
    decide
  · have h := kernComputeE_bit 5 1 (by norm_num)
    rw [h]
    decide

end StreamCompaction

/-! ## Output sizes of radixSort, and claim theorems for the remaining claims -/

namespace StreamCompaction

lemma length_foldl_set (l : List ℕ) (od : List ℤ) (f : ℕ → ℕ) (g : ℕ → ℤ) :
    (l.foldl (fun acc idx => acc.set (f idx) (g idx)) od).length = od.length := by
  induction l generalizing od with
  | nil => rfl
  | cons a t ih => rw [List.foldl_cons, ih, List.length_set]

lemma radixPass_odata_length (n L eff i : ℕ) (s : RadixState) :
    (radixPass n L eff i s).odata.length = s.odata.length := by
  unfold radixPass
  exact length_foldl_set _ _ _ _

lemma radixSort_length (n : ℕ) (idata : List ℤ) (m1 m2 m3 m4 m5 : ℕ → ℤ) :
    (radixSort n idata m1 m2 m3 m4 m5).length = 2 ^ ilog2ceil n := by
  unfold radixSort
  have key : ∀ (l : List ℕ) (s : RadixState),
      ((l.foldl
        (fun s i =>
          radixPass n (2 ^ ilog2ceil n) (min (gridThreads n) (2 ^ ilog2ceil n)) i s)
        s).odata).length = s.odata.length := by
    intro l
    induction l with
    | nil => intro s; rfl
    | cons a t ih =>
      intro s
      rw [List.foldl_cons, ih, radixPass_odata_length]
  rw [key]
  simp

/-- C10: `radixSort(n, out, in)` writes `paddedLength = 2 ^ ilog2ceil n`
elements to `out`, not `n`; when `n` is not a power of two this exceeds `n`,
so positions `[n, paddedLength)` of `out` are written as well (with the
contents of the padded device buffer). -/
theorem radixSort_output_length (n : ℕ) (hn : 1 ≤ n) (idata : List ℤ)
    (m1 m2 m3 m4 m5 : ℕ → ℤ) :
    (radixSort n idata m1 m2 m3 m4 m5).length = 2 ^ ilog2ceil n ∧
    ((¬ ∃ j, n = 2 ^ j) → n < 2 ^ ilog2ceil n) := by
  refine ⟨radixSort_length n idata m1 m2 m3 m4 m5, ?_⟩
  intro hnp
  have h := ilog2ceil_le_pow n
  rcases Nat.lt_or_ge n (2 ^ ilog2ceil n) with h2 | h2
  · exact h2
  · exact absurd ⟨ilog2ceil n, by omega⟩ hnp

theorem radixSort_output_length_witness :
    (radixSort 5 ([5, 3, 1, 4, 2] : List ℤ) (fun _ => 0) (fun _ => 0) (fun _ => 0)
      (fun _ => 0) (fun _ => 0)).length = 2 ^ ilog2ceil 5 ∧
    ((¬ ∃ j, (5 : ℕ) = 2 ^ j) → 5 < 2 ^ ilog2ceil 5) :=
  radixSort_output_length 5 (by norm_num) _ _ _ _ _ _

/-- C9 (counterexample): with `n = 0` the padded length is
`2 ^ ilog2ceil 0 = 1` and the final host copy of `radixSort` transfers
`arraySize = 1` elements, so the output has length 1, not 0. -/
theorem radixSort_zero_writes_one :
    (radixSort 0 ([] : List ℤ) (fun _ => 0) (fun _ => 0) (fun _ => 0) (fun _ => 0)
      (fun _ => 0)).length = 1 := by
  rw [radixSort_length]
  decide

/-- C9 (amended): at `n = 0`, `scan` copies no elements to the host (empty
output); `radixSort` copies `2 ^ ilog2ceil 0 = 1` element (the single padded
slot); `compact` returns the uninitialized content of the last slot of
`dev_bool` — 0 only if the fresh allocation happens to hold 0 — and its host
output holds that many elements. -/
theorem edge_case_n_zero (idata : List ℤ) (mS mI mO mE mT mD mB mX mU mJ : ℕ → ℤ) :
    scan 0 idata mS = [] ∧
    (radixSort 0 idata mI mO mE mT mD).length = 1 ∧
    (compact 0 idata mB mX mU mJ).1 = mB 0 ∧
    (compact 0 idata mB mX mU mJ).2.length = (mB 0).toNat := by
  refine ⟨rfl, ?_, ?_, ?_⟩
  · rw [radixSort_length]
    decide
  · show (0 : ℤ) + mB 0 = mB 0
    exact zero_add (mB 0)
  · show ((List.range ((0 + mB 0).toNat)).map mU).length = (mB 0).toNat
    simp

end StreamCompaction

/-! ## Evaluation theorems exhibiting the padding-neutrality defects -/

namespace StreamCompaction

/-- C3 (code evaluation): in `scan(3, ·, [1,2,3])` the padded device buffer
handed to `upDownSweep` is `[1, 2, 3, m]` where `m` is whatever the allocator
returned for the pad slot — the source performs no zero-fill after copying in
the `n` inputs.  With pad content 7, position `3 ∈ [n, paddedLength)` holds
`7 ≠ 0` when the scan core starts. -/
theorem scanPaddedInput_pad_not_zeroed :
    (scanPaddedInput 3 ([1, 2, 3] : List ℤ) fun _ => 7).getD 3 0 = 7 := by decide

set_option maxRecDepth 100000

/-- C4 (code evaluation): with `n = 5` (padded length 8) the classification
buffer `dev_e` is written by `kernComputeE` only below `n` and `cudaMemset`
only at slot 7, so slots 5 and 6 keep their allocator contents in every pass.
With those slots holding 1 (and the `dev_idata` pad holding 0), sorting
`[1, 1, 1, 1, 1]` yields first-`n` output `[0, 0, 1, 1, 1]` — not a
permutation of the input and not its sorted order. -/
theorem radixSort_pad_garbage :
    (radixSort 5 ([1, 1, 1, 1, 1] : List ℤ) (fun _ => 0) (fun _ => 0) (fun _ => 1)
      (fun _ => 0) (fun _ => 0)).take 5 = [0, 0, 1, 1, 1] := by decide

/-- C5 (code evaluation): in `compact(3, ·, [1,1,1])` (padded length 4) the
last slot of `dev_bool` is never written; with allocator content 7 there the
returned count is `scanResult[3] + dev_bool[3] = 3 + 7 = 10`, not the number
3 of nonzero inputs. -/
theorem compact_count_garbage :
    (compact 3 ([1, 1, 1] : List ℤ) (fun _ => 7) (fun _ => 0) (fun _ => 9)
      (fun _ => 0)).1 = 10 := by decide

/-- C6 (code evaluation): in `compact(5, ·, [1,2,3,4,5])` (padded length 8)
the pad slots of `dev_indices` are never written; with allocator content −1
there (and 0 in the `dev_bool` pads) the scan yields
`scanResult = [0,1,2,3,4,5,4,3]`, the computed size is `3 + 0 = 3`, and the
scatter writes of elements 4 and 5 target slots outside the 3-element output
buffer, so the host output is `[1, 2, 3]` — the retained elements 4 and 5 are
lost. -/
theorem compact_loses_elements :
    (compact 5 ([1, 2, 3, 4, 5] : List ℤ) (fun _ => 0) (fun _ => -1) (fun _ => 9)
      (fun _ => 0)).2 = [1, 2, 3] := by decide

/-- C7 (code evaluation): the `dev_e` buffer of the first radix pass on
`n = 5`, `paddedLength = 8`: `kernComputeE` fills `[0, 5)`, the `cudaMemset`
clears only slot 7, and slots 5, 6 keep the allocator's contents (here 3).
Position `5 ∈ [n, paddedLength)` holds `3 ≠ 0` when the scan of `e` starts. -/
theorem radixEArray_pad_not_zeroed :
    (radixEArray 5 (2 ^ ilog2ceil 5) 0
      (([1, 1, 1, 1, 1] : List ℤ) ++ (List.range (2 ^ ilog2ceil 5 - 5)).map fun _ => 0)
      ((List.range (2 ^ ilog2ceil 5)).map fun _ => 3)).getD 5 0 = 3 := by decide

end StreamCompaction
